import Mathlib

/-!
# SDAL-Builder: shallow embedding and verification

A shallow embedding of the SDAL map-compiler (`src/sdal_builder/*.py`,
`validate_sdal_iso.py`) together with theorems settling the specification
claims.  Bytes are modelled as `Nat` (each `< 256`), 32-bit states as `Nat`
with explicit bounds `< 2 ^ 32`, Python floats as `ℚ`, Python `str` as
`List Char`, and fallible `struct.pack` calls as `Option`.
-/

namespace SDAL

/-! ## CRC-32 (zlib.crc32, reflected polynomial 0xEDB88320)

`zlib.crc32(body) & 0xFFFFFFFF` as used by `encoder._hdr` and the
validator: state initialised to `0xFFFFFFFF`, each byte XORed into the low
eight bits followed by eight conditional-polynomial right shifts, final
complement. -/

def POLY : Nat := 0xEDB88320

def crcBit (s : Nat) : Nat :=
  if s % 2 = 1 then (s / 2) ^^^ POLY else s / 2

def crcBit8 (s : Nat) : Nat :=
  crcBit (crcBit (crcBit (crcBit (crcBit (crcBit (crcBit (crcBit s)))))))

def crcByte (s b : Nat) : Nat := crcBit8 (s ^^^ b)

def crc32 (data : List Nat) : Nat :=
  (data.foldl crcByte 0xFFFFFFFF) ^^^ 0xFFFFFFFF

/-- Explicit inverse of one CRC bit-step on 32-bit states: the polynomial has
its top bit set, so bit 31 of the output records the consumed low bit. -/
def crcBitInv (t : Nat) : Nat :=
  if 2 ^ 31 ≤ t then 2 * (t ^^^ POLY) + 1 else 2 * t

theorem crcBit_lt {s : Nat} (hs : s < 2 ^ 32) : crcBit s < 2 ^ 32 := by
  unfold crcBit
  have h2 : s / 2 < 2 ^ 32 := lt_of_le_of_lt (Nat.div_le_self s 2) hs
  split
  · exact Nat.xor_lt_two_pow h2 (by norm_num [POLY])
  · exact h2

theorem crcBit8_lt {s : Nat} (hs : s < 2 ^ 32) : crcBit8 s < 2 ^ 32 := by
  unfold crcBit8
  exact crcBit_lt (crcBit_lt (crcBit_lt (crcBit_lt
    (crcBit_lt (crcBit_lt (crcBit_lt (crcBit_lt hs)))))))

theorem crcByte_lt {s b : Nat} (hs : s < 2 ^ 32) (hb : b < 256) :
    crcByte s b < 2 ^ 32 := by
  unfold crcByte
  exact crcBit8_lt (Nat.xor_lt_two_pow hs (lt_trans hb (by norm_num)))

theorem crcBitInv_crcBit {s : Nat} (hs : s < 2 ^ 32) :
    crcBitInv (crcBit s) = s := by
  have hhalf : s / 2 < 2 ^ 31 := by omega
  unfold crcBit
  by_cases hpar : s % 2 = 1
  · rw [if_pos hpar]
    have hbit : (s / 2 ^^^ POLY).testBit 31 = true := by
      rw [Nat.testBit_xor, Nat.testBit_lt_two_pow hhalf]
      decide
    have hge : 2 ^ 31 ≤ s / 2 ^^^ POLY := Nat.testBit_implies_ge hbit
    rw [crcBitInv, if_pos hge, Nat.xor_cancel_right]
    omega
  · rw [if_neg hpar]
    have hlt : ¬ 2 ^ 31 ≤ s / 2 := by omega
    rw [crcBitInv, if_neg hlt]
    omega

theorem crcBit_injOn {s s' : Nat} (hs : s < 2 ^ 32) (hs' : s' < 2 ^ 32)
    (h : crcBit s = crcBit s') : s = s' := by
  have := crcBitInv_crcBit hs
  rw [h, crcBitInv_crcBit hs'] at this
  omega

theorem crcBit8_injOn {s s' : Nat} (hs : s < 2 ^ 32) (hs' : s' < 2 ^ 32)
    (h : crcBit8 s = crcBit8 s') : s = s' := by
  unfold crcBit8 at h
  have l1 := crcBit_lt hs
  have l1' := crcBit_lt hs'
  have l2 := crcBit_lt l1
  have l2' := crcBit_lt l1'
  have l3 := crcBit_lt l2
  have l3' := crcBit_lt l2'
  have l4 := crcBit_lt l3
  have l4' := crcBit_lt l3'
  have l5 := crcBit_lt l4
  have l5' := crcBit_lt l4'
  have l6 := crcBit_lt l5
  have l6' := crcBit_lt l5'
  have l7 := crcBit_lt l6
  have l7' := crcBit_lt l6'
  exact crcBit_injOn hs hs' (crcBit_injOn l1 l1' (crcBit_injOn l2 l2'
    (crcBit_injOn l3 l3' (crcBit_injOn l4 l4' (crcBit_injOn l5 l5'
      (crcBit_injOn l6 l6' (crcBit_injOn l7 l7' h)))))))

theorem crcByte_state_injOn {s s' b : Nat} (hs : s < 2 ^ 32) (hs' : s' < 2 ^ 32)
    (hb : b < 256) (h : crcByte s b = crcByte s' b) : s = s' := by
  have hb32 : b < 2 ^ 32 := lt_trans hb (by norm_num)
  have := crcBit8_injOn (Nat.xor_lt_two_pow hs hb32)
    (Nat.xor_lt_two_pow hs' hb32) h
  have h2 : (s ^^^ b) ^^^ b = (s' ^^^ b) ^^^ b := by rw [this]
  rwa [Nat.xor_cancel_right, Nat.xor_cancel_right] at h2

theorem crcByte_byte_injOn {s b b' : Nat} (hs : s < 2 ^ 32) (hb : b < 256)
    (hb' : b' < 256) (h : crcByte s b = crcByte s b') : b = b' := by
  have hb32 : b < 2 ^ 32 := lt_trans hb (by norm_num)
  have hb32' : b' < 2 ^ 32 := lt_trans hb' (by norm_num)
  have := crcBit8_injOn (Nat.xor_lt_two_pow hs hb32)
    (Nat.xor_lt_two_pow hs hb32') h
  have h2 : s ^^^ (s ^^^ b) = s ^^^ (s ^^^ b') := by rw [this]
  rwa [← Nat.xor_assoc, Nat.xor_self, Nat.zero_xor, ← Nat.xor_assoc,
    Nat.xor_self, Nat.zero_xor] at h2

theorem foldl_crcByte_lt {l : List Nat} (hl : ∀ b ∈ l, b < 256) {s : Nat}
    (hs : s < 2 ^ 32) : l.foldl crcByte s < 2 ^ 32 := by
  induction l generalizing s with
  | nil => simpa using hs
  | cons a t ih =>
    rw [List.foldl_cons]
    exact ih (fun b hb => hl b (List.mem_cons_of_mem a hb))
      (crcByte_lt hs (hl a (List.mem_cons_self a t)))

theorem foldl_crcByte_ne {l : List Nat} (hl : ∀ b ∈ l, b < 256) {s s' : Nat}
    (hs : s < 2 ^ 32) (hs' : s' < 2 ^ 32) (h : s ≠ s') :
    l.foldl crcByte s ≠ l.foldl crcByte s' := by
  induction l generalizing s s' with
  | nil => simpa using h
  | cons a t ih =>
    rw [List.foldl_cons, List.foldl_cons]
    have ha : a < 256 := hl a (List.mem_cons_self a t)
    refine ih (fun b hb => hl b (List.mem_cons_of_mem a hb))
      (crcByte_lt hs ha) (crcByte_lt hs' ha) ?_
    intro heq
    exact h (crcByte_state_injOn hs hs' ha heq)

/-- Changing exactly one byte of the input changes the running CRC state. -/
theorem foldl_crcByte_set_ne {l : List Nat} (hl : ∀ b ∈ l, b < 256)
    {i : Nat} (hi : i < l.length) {d : Nat} (hd : d < 256)
    (hne : d ≠ l[i]) {s : Nat} (hs : s < 2 ^ 32) :
    (l.set i d).foldl crcByte s ≠ l.foldl crcByte s := by
  induction l generalizing i s with
  | nil => simp at hi
  | cons a t ih =>
    have ha : a < 256 := hl a (List.mem_cons_self a t)
    have ht : ∀ b ∈ t, b < 256 := fun b hb => hl b (List.mem_cons_of_mem a hb)
    cases i with
    | zero =>
      simp only [List.getElem_cons_zero] at hne
      rw [List.set_cons_zero, List.foldl_cons, List.foldl_cons]
      refine foldl_crcByte_ne ht (crcByte_lt hs hd) (crcByte_lt hs ha) ?_
      intro heq
      exact hne (crcByte_byte_injOn hs hd ha heq)
    | succ j =>
      simp only [List.length_cons, Nat.succ_lt_succ_iff] at hi
      simp only [List.getElem_cons_succ] at hne
      rw [List.set_cons_succ, List.foldl_cons, List.foldl_cons]
      exact ih ht hi hne (crcByte_lt hs ha)

theorem crc32_lt {l : List Nat} (hl : ∀ b ∈ l, b < 256) : crc32 l < 2 ^ 32 := by
  unfold crc32
  exact Nat.xor_lt_two_pow (foldl_crcByte_lt hl (by norm_num)) (by norm_num)

theorem crc32_set_ne {l : List Nat} (hl : ∀ b ∈ l, b < 256)
    {i : Nat} (hi : i < l.length) {d : Nat} (hd : d < 256)
    (hne : d ≠ l[i]) : crc32 (l.set i d) ≠ crc32 l := by
  unfold crc32
  intro h
  have h2 : ((l.set i d).foldl crcByte 0xFFFFFFFF ^^^ 0xFFFFFFFF) ^^^ 0xFFFFFFFF
      = (l.foldl crcByte 0xFFFFFFFF ^^^ 0xFFFFFFFF) ^^^ 0xFFFFFFFF := by rw [h]
  rw [Nat.xor_cancel_right, Nat.xor_cancel_right] at h2
  exact foldl_crcByte_set_ne hl hi hd hne (by norm_num) h2

/-! ## Parcel codec (`encoder.py`, `validate_sdal_iso.py`)

`constants.py` is absent from `src/`, but the in-repo validator pins the
header format: `FMT = 'u16u32u32u16u16u8u8'`, seven fields, sixteen bytes,
and `bitstruct` packs fields most-significant-bit first (big-endian).
`_hdr` packs exactly seven values `(pid, len(body), crc, 0, 1, 0, 0)`,
matching that format.  `bitstruct.pack` rejects out-of-range field values;
the embedding below is total (it reduces modulo the field width) and the
theorems carry the in-range hypotheses instead. -/

/-- Two big-endian bytes of a `u16` field. -/
def be2 (v : Nat) : List Nat := [v / 256 % 256, v % 256]

/-- Four big-endian bytes of a `u32` field. -/
def be4 (v : Nat) : List Nat :=
  [v / 16777216 % 256, v / 65536 % 256, v / 256 % 256, v % 256]

/-- `encoder._hdr`: 16-byte parcel header
`kind:u16 | length:u32 | crc32:u32 | u16 = 0 | u16 = 1 | u8 = 0 | u8 = 0`. -/
def hdr (pid : Nat) (body : List Nat) : List Nat :=
  be2 pid ++ be4 body.length ++ be4 (crc32 body) ++ be2 0 ++ be2 1 ++ [0, 0]

/-- `encoder.encode_bytes`: header followed by the raw payload. -/
def encode_bytes (pid : Nat) (payload : List Nat) : List Nat :=
  hdr pid payload ++ payload

/-- Single-parcel step of `validate_sdal_iso.py`: read the fixed 16-byte
header, read `length` payload bytes, recompute and compare the CRC.
Returns `(pid, stored crc, payload)` on success, `none` on a short header,
a length overrun, or a CRC mismatch. -/
def decode_parcel : List Nat → Option (Nat × Nat × List Nat)
  | b0 :: b1 :: b2 :: b3 :: b4 :: b5 :: b6 :: b7 :: b8 :: b9 ::
      _ :: _ :: _ :: _ :: _ :: _ :: rest =>
    let pid := b0 * 256 + b1
    let length := ((b2 * 256 + b3) * 256 + b4) * 256 + b5
    let crc := ((b6 * 256 + b7) * 256 + b8) * 256 + b9
    if length ≤ rest.length then
      let payload := rest.take length
      if crc32 payload = crc then some (pid, crc, payload) else none
    else none
  | _ => none

theorem hdr_length (pid : Nat) (body : List Nat) : (hdr pid body).length = 16 := by
  simp [hdr, be2, be4]

/-- C3 counterexample: the header is not 14 bytes, so the total encoded
size of `encode(5, b"")` is 16, not `14 + 0`. -/
theorem C3_counterexample :
    (encode_bytes 5 []).length = 16 ∧ (encode_bytes 5 []).length ≠ 14 + 0 := by
  constructor
  · simp [encode_bytes, hdr_length]
  · simp [encode_bytes, hdr_length]

/-- C3 (amended): `encode(K, P)` emits a 16-byte big-endian header laid out
as `kind:u16 | length:u32 | crc32(P):u32 | reserved:u16 | version:u16 (= 1) |
reserved:u8 | reserved:u8`, immediately followed by `P`; the total encoded
size is `16 + len(P)` and the header size is the same constant for every
payload. -/
theorem C3_header_layout (K : Nat) (P : List Nat) (hK : K < 65536)
    (hlen : P.length < 4294967296) (hP : ∀ b ∈ P, b < 256) :
    (encode_bytes K P).length = 16 + P.length ∧
    (hdr K P).length = 16 ∧
    encode_bytes K P =
      K / 256 :: K % 256 ::
      P.length / 16777216 :: P.length / 65536 % 256 ::
        P.length / 256 % 256 :: P.length % 256 ::
      crc32 P / 16777216 :: crc32 P / 65536 % 256 ::
        crc32 P / 256 % 256 :: crc32 P % 256 ::
      0 :: 0 :: 0 :: 1 :: 0 :: 0 :: P := by
  have hcrc : crc32 P < 4294967296 := by
    have := crc32_lt hP
    norm_num at this
    exact this
  refine ⟨by simp [encode_bytes, hdr_length], hdr_length K P, ?_⟩
  simp only [encode_bytes, hdr, be2, be4, List.cons_append, List.nil_append,
    List.cons.injEq, eq_self_iff_true, and_true, true_and]
  omega

/-- Witness for C3: the amended layout evaluated at kind 5, payload `[7]`. -/
theorem C3_header_layout_witness :
    (5 < 65536 ∧ ([7] : List Nat).length < 4294967296 ∧ ∀ b ∈ ([7] : List Nat), b < 256) ∧
    (encode_bytes 5 [7]).length = 16 + ([7] : List Nat).length := by
  refine ⟨⟨by norm_num, by norm_num, by decide⟩, ?_⟩
  exact (C3_header_layout 5 [7] (by norm_num) (by norm_num) (by decide)).1

theorem crc32_bound' {P : List Nat} (hP : ∀ b ∈ P, b < 256) :
    crc32 P < 4294967296 := by
  have := crc32_lt hP
  norm_num at this
  exact this

theorem decode_encode (K : Nat) (P : List Nat) (hK : K < 65536)
    (hlen : P.length < 4294967296) (hP : ∀ b ∈ P, b < 256) :
    decode_parcel (encode_bytes K P) = some (K, crc32 P, P) := by
  have hcrc : crc32 P < 4294967296 := crc32_bound' hP
  simp only [encode_bytes, hdr, be2, be4, List.cons_append, List.nil_append,
    decode_parcel]
  rw [show ((P.length / 16777216 % 256 * 256 + P.length / 65536 % 256) * 256
      + P.length / 256 % 256) * 256 + P.length % 256 = P.length from by omega]
  rw [show ((crc32 P / 16777216 % 256 * 256 + crc32 P / 65536 % 256) * 256
      + crc32 P / 256 % 256) * 256 + crc32 P % 256 = crc32 P from by omega]
  rw [show K / 256 % 256 * 256 + K % 256 = K from by omega]
  simp [List.take_length]

theorem decode_flip (K : Nat) (P : List Nat) (hlen : P.length < 4294967296)
    (hP : ∀ b ∈ P, b < 256) {i : Nat} (hi : i < P.length) {d : Nat}
    (hd : d < 256) (hne : d ≠ P[i]) :
    decode_parcel (hdr K P ++ P.set i d) = none := by
  have hcrc : crc32 P < 4294967296 := crc32_bound' hP
  have hsetlen : (P.set i d).length = P.length := List.length_set P i d
  simp only [hdr, be2, be4, List.cons_append, List.nil_append, decode_parcel]
  rw [show ((P.length / 16777216 % 256 * 256 + P.length / 65536 % 256) * 256
      + P.length / 256 % 256) * 256 + P.length % 256 = P.length from by omega]
  rw [show ((crc32 P / 16777216 % 256 * 256 + crc32 P / 65536 % 256) * 256
      + crc32 P / 256 % 256) * 256 + crc32 P % 256 = crc32 P from by omega]
  rw [if_pos (le_of_eq hsetlen.symm)]
  rw [show P.length = (P.set i d).length from hsetlen.symm, List.take_length]
  rw [if_neg]
  exact crc32_set_ne hP hi hd hne

/-- C6: decoding an encoded parcel (read the fixed header, read `length`
bytes, verify the CRC) yields the kind and payload exactly, the stored
checksum is `crc32(P)` (`0` for the empty payload), and flipping any single
payload byte of the encoded bytes makes checksum verification fail. -/
theorem C6_roundtrip_and_flip (K : Nat) (P : List Nat) (hK : K < 65536)
    (hlen : P.length < 4294967296) (hP : ∀ b ∈ P, b < 256) :
    decode_parcel (encode_bytes K P) = some (K, crc32 P, P)
    ∧ crc32 [] = 0
    ∧ ∀ i, i < P.length → ∀ d, d < 256 → d ≠ P.getD i 0 →
        decode_parcel (hdr K P ++ P.set i d) = none := by
  refine ⟨decode_encode K P hK hlen hP, by decide, ?_⟩
  intro i hi d hd hne
  rw [List.getD_eq_getElem P 0 hi] at hne
  exact decode_flip K P hlen hP hi hd hne

/-- Witness for C6 at kind 5, payload `[7, 8]`, flipping byte 0 to 9. -/
theorem C6_witness :
    (5 < 65536 ∧ ([7, 8] : List Nat).length < 4294967296
      ∧ (∀ b ∈ ([7, 8] : List Nat), b < 256)
      ∧ 0 < ([7, 8] : List Nat).length ∧ 9 < 256
      ∧ (9 : Nat) ≠ ([7, 8] : List Nat).getD 0 0) ∧
    decode_parcel (encode_bytes 5 [7, 8]) = some (5, crc32 [7, 8], [7, 8]) ∧
    decode_parcel (hdr 5 [7, 8] ++ ([7, 8] : List Nat).set 0 9) = none := by
  have h := C6_roundtrip_and_flip 5 [7, 8] (by norm_num) (by norm_num) (by decide)
  exact ⟨⟨by norm_num, by norm_num, by decide, by norm_num, by norm_num, by decide⟩,
    h.1, h.2.2 0 (by norm_num) 9 (by norm_num) (by decide)⟩

/-! ## NUL-terminated string parcels (`encoder.encode_strings`)

Python `str` values are modelled as `List Char`; `s.encode('utf8')` is the
standard UTF-8 encoding, written with `/` and `%` so the disjoint bit
fields appear as sums. -/

def utf8Char (c : Char) : List Nat :=
  if c.toNat < 128 then [c.toNat]
  else if c.toNat < 2048 then [192 + c.toNat / 64, 128 + c.toNat % 64]
  else if c.toNat < 65536 then
    [224 + c.toNat / 4096, 128 + c.toNat / 64 % 64, 128 + c.toNat % 64]
  else
    [240 + c.toNat / 262144, 128 + c.toNat / 4096 % 64,
     128 + c.toNat / 64 % 64, 128 + c.toNat % 64]

def utf8Str (s : List Char) : List Nat := (s.map utf8Char).flatten

/-- Payload built by `encode_strings`: each string UTF-8 encoded,
NUL-terminated, concatenated in input order. -/
def stringsPayload (L : List (List Char)) : List Nat :=
  (L.map (fun s => utf8Str s ++ [0])).flatten

def encode_strings (pid : Nat) (L : List (List Char)) : List Nat :=
  encode_bytes pid (stringsPayload L)

/-- Prefix decoder for one UTF-8 character; proof device for injectivity. -/
def utf8DecodeChar : List Nat → Option (Nat × List Nat)
  | [] => none
  | b :: r =>
    if b < 128 then some (b, r)
    else if b < 224 then
      match r with
      | b1 :: r1 => some ((b - 192) * 64 + (b1 - 128), r1)
      | [] => none
    else if b < 240 then
      match r with
      | b1 :: b2 :: r2 =>
          some ((b - 224) * 4096 + (b1 - 128) * 64 + (b2 - 128), r2)
      | _ => none
    else
      match r with
      | b1 :: b2 :: b3 :: r3 =>
          some ((b - 240) * 262144 + (b1 - 128) * 4096
            + (b2 - 128) * 64 + (b3 - 128), r3)
      | _ => none

theorem char_toNat_lt (c : Char) : c.toNat < 1114112 := by
  rcases c.valid with h | ⟨_, h⟩
  · have := UInt32.toNat_lt_of_lt (n := c.val) (m := 0xd800) (by decide) h
    change c.val.toNat < 1114112
    omega
  · have := UInt32.toNat_lt_of_lt (n := c.val) (m := 0x110000) (by decide) h
    change c.val.toNat < 1114112
    omega

theorem utf8DecodeChar_encode (c : Char) (r : List Nat) :
    utf8DecodeChar (utf8Char c ++ r) = some (c.toNat, r) := by
  have hv : c.toNat < 1114112 := char_toNat_lt c
  by_cases h1 : c.toNat < 128
  · rw [utf8Char, if_pos h1]
    simp only [List.cons_append, List.nil_append, utf8DecodeChar, if_pos h1]
  · by_cases h2 : c.toNat < 2048
    · rw [utf8Char, if_neg h1, if_pos h2]
      simp only [List.cons_append, List.nil_append, utf8DecodeChar]
      rw [if_neg (by omega), if_pos (by omega)]
      simp only [Option.some.injEq, Prod.mk.injEq]
      exact ⟨by omega, trivial⟩
    · by_cases h3 : c.toNat < 65536
      · rw [utf8Char, if_neg h1, if_neg h2, if_pos h3]
        simp only [List.cons_append, List.nil_append, utf8DecodeChar]
        rw [if_neg (by omega), if_neg (by omega), if_pos (by omega)]
        simp only [Option.some.injEq, Prod.mk.injEq]
        exact ⟨by omega, trivial⟩
      · rw [utf8Char, if_neg h1, if_neg h2, if_neg h3]
        simp only [List.cons_append, List.nil_append, utf8DecodeChar]
        rw [if_neg (by omega), if_neg (by omega), if_neg (by omega)]
        simp only [Option.some.injEq, Prod.mk.injEq]
        exact ⟨by omega, trivial⟩

theorem utf8Char_ne_nil (c : Char) : utf8Char c ≠ [] := by
  unfold utf8Char
  split
  · simp
  split
  · simp
  split
  · simp
  · simp

theorem utf8Str_inj {s t : List Char} (h : utf8Str s = utf8Str t) : s = t := by
  induction s generalizing t with
  | nil =>
    cases t with
    | nil => rfl
    | cons d t' =>
      exfalso
      simp only [utf8Str, List.map_nil, List.flatten_nil, List.map_cons,
        List.flatten_cons] at h
      exact utf8Char_ne_nil d (List.append_eq_nil.mp h.symm).1
  | cons c s' ih =>
    cases t with
    | nil =>
      exfalso
      simp only [utf8Str, List.map_nil, List.flatten_nil, List.map_cons,
        List.flatten_cons] at h
      exact utf8Char_ne_nil c (List.append_eq_nil.mp h).1
    | cons d t' =>
      simp only [utf8Str, List.map_cons, List.flatten_cons] at h
      have hdec := congrArg utf8DecodeChar h
      rw [utf8DecodeChar_encode, utf8DecodeChar_encode] at hdec
      simp only [Option.some.injEq, Prod.mk.injEq] at hdec
      have hc : c = d := by
        rw [← Char.ofNat_toNat c, ← Char.ofNat_toNat d, hdec.1]
      rw [hc, ih hdec.2]

theorem zero_not_mem_utf8Char {c : Char} (hc : c ≠ Char.ofNat 0) :
    (0 : Nat) ∉ utf8Char c := by
  have hv : c.toNat ≠ 0 := fun h => hc (by rw [← Char.ofNat_toNat c, h])
  unfold utf8Char
  split
  · simp
    omega
  split
  · simp
    omega
  split
  · simp
    omega
  · simp
    omega

theorem zero_not_mem_utf8Str {s : List Char}
    (hs : ∀ c ∈ s, c ≠ Char.ofNat 0) : (0 : Nat) ∉ utf8Str s := by
  rw [utf8Str]
  intro hmem
  rw [List.mem_flatten] at hmem
  obtain ⟨l, hl, h0⟩ := hmem
  rw [List.mem_map] at hl
  obtain ⟨c, hc, rfl⟩ := hl
  exact zero_not_mem_utf8Char (hs c hc) h0

theorem splitOn_stringsPayload (L : List (List Char))
    (h : ∀ s ∈ L, ∀ c ∈ s, c ≠ Char.ofNat 0) :
    (stringsPayload L).splitOn 0 = L.map utf8Str ++ [[]] := by
  induction L with
  | nil => simp [stringsPayload]
  | cons s t ih =>
    have hpay : stringsPayload (s :: t)
        = utf8Str s ++ 0 :: stringsPayload t := by
      simp [stringsPayload, List.flatten_cons]
    rw [hpay, List.splitOn, List.splitOnP_first _ _
      (fun x hx => by
        simp only [beq_iff_eq]
        intro h0
        exact zero_not_mem_utf8Str (h s (List.mem_cons_self s t)) (h0 ▸ hx))
      0 (by simp)]
    rw [List.map_cons, List.cons_append]
    congr 1
    exact ih (fun s' hs' => h s' (List.mem_cons_of_mem s hs'))

/-- C7 counterexample: a string containing the NUL character breaks the
round trip — `["\x00"]` and `["", ""]` produce the identical payload
`[0, 0]`, and NUL-splitting that payload does not recover `["\x00"]`. -/
theorem C7_counterexample :
    stringsPayload [[Char.ofNat 0]] = stringsPayload [[], []]
    ∧ ((stringsPayload [[Char.ofNat 0]]).splitOn 0).dropLast
        ≠ ([[Char.ofNat 0]] : List (List Char)).map utf8Str := by
  constructor
  · decide
  · decide

/-- C7 (amended): for every list of strings none of which contains the NUL
character (empty strings allowed), the payload of `encode_strings` is each
string UTF-8 encoded, NUL-terminated, concatenated in input order, and
splitting the payload on NUL (dropping the final empty piece) recovers
exactly the UTF-8 encodings of the original list; the payload determines
the original list uniquely. -/
theorem C7_strings_roundtrip (L : List (List Char))
    (h : ∀ s ∈ L, ∀ c ∈ s, c ≠ Char.ofNat 0) :
    ((stringsPayload L).splitOn 0).dropLast = L.map utf8Str
    ∧ ∀ L₂, (∀ s ∈ L₂, ∀ c ∈ s, c ≠ Char.ofNat 0) →
        stringsPayload L₂ = stringsPayload L → L₂ = L := by
  constructor
  · rw [splitOn_stringsPayload L h]
    exact List.dropLast_concat
  · intro L₂ h₂ heq
    have e : L₂.map utf8Str ++ [[]] = L.map utf8Str ++ [[]] := by
      rw [← splitOn_stringsPayload L₂ h₂, ← splitOn_stringsPayload L h, heq]
    have e2 : L₂.map utf8Str = L.map utf8Str :=
      List.append_cancel_right e
    exact List.map_injective_iff.mpr (fun _ _ => utf8Str_inj) e2

/-- Witness for C7 (amended) at `L = ["a", ""]`. -/
theorem C7_strings_roundtrip_witness :
    (∀ s ∈ ([[Char.ofNat 97], []] : List (List Char)), ∀ c ∈ s, c ≠ Char.ofNat 0) ∧
    ((stringsPayload [[Char.ofNat 97], []]).splitOn 0).dropLast
      = ([[Char.ofNat 97], []] : List (List Char)).map utf8Str := by
  refine ⟨by decide, ?_⟩
  exact (C7_strings_roundtrip [[Char.ofNat 97], []] (by decide)).1

/-! ## Density-tile normalization (`main.build`, step 5)

`max_val = density_array.max()`, `scale = 65535.0 / max_val if max_val > 0
else 0.0`, `(density_array * scale).clip(0, 65535).astype(np.uint16)`.
The float64 cells are modelled with exact rationals; cells are sums of
segment lengths, hence non-negative. -/

def maxCell (g : List ℚ) : ℚ := g.foldl max 0

def densScale (g : List ℚ) : ℚ :=
  if 0 < maxCell g then 65535 / maxCell g else 0

/-- Per-cell `clip(0, 65535)` followed by truncation to `uint16`. -/
def normalizeTile (g : List ℚ) : List Nat :=
  g.map (fun v => (⌊min (max (v * densScale g) 0) 65535⌋).toNat)

theorem foldl_max_init (g : List ℚ) (a : ℚ) : a ≤ g.foldl max a := by
  induction g generalizing a with
  | nil => simp
  | cons x t ih => exact le_trans (le_max_left a x) (ih (max a x))

theorem le_foldl_max {g : List ℚ} {v : ℚ} (hv : v ∈ g) (a : ℚ) :
    v ≤ g.foldl max a := by
  induction g generalizing a with
  | nil => simp at hv
  | cons x t ih =>
    rw [List.foldl_cons]
    rcases List.mem_cons.mp hv with rfl | hm
    · exact le_trans (le_max_right a v) (foldl_max_init t (max a v))
    · exact ih hm (max a x)

/-- C8: with a positive tile maximum the output grid is each cell linearly
scaled by `65535 / max` (truncated to `uint16`), the maximum cell mapping
to 65535; with a zero maximum the scale is zero and every output cell is
zero. -/
theorem C8_normalization (g : List ℚ) (hg : ∀ v ∈ g, 0 ≤ v) :
    (0 < maxCell g →
      normalizeTile g
        = g.map (fun v => (⌊v * (65535 / maxCell g)⌋).toNat)
      ∧ ∀ v ∈ g, v = maxCell g → (⌊v * (65535 / maxCell g)⌋).toNat = 65535)
    ∧ (maxCell g = 0 →
      densScale g = 0 ∧ ∀ b ∈ normalizeTile g, b = 0) := by
  constructor
  · intro hm
    have hscale : densScale g = 65535 / maxCell g := if_pos hm
    have hsnn : (0 : ℚ) ≤ 65535 / maxCell g :=
      div_nonneg (by norm_num) (le_of_lt hm)
    constructor
    · rw [normalizeTile]
      refine List.map_congr_left ?_
      intro v hv
      have hv0 : 0 ≤ v := hg v hv
      have hvm : v ≤ maxCell g := le_foldl_max hv 0
      have hnn : 0 ≤ v * densScale g := by
        rw [hscale]
        exact mul_nonneg hv0 hsnn
      have hub : v * densScale g ≤ 65535 := by
        rw [hscale]
        calc v * (65535 / maxCell g) ≤ maxCell g * (65535 / maxCell g) :=
              mul_le_mul_of_nonneg_right hvm hsnn
          _ = 65535 := by
              rw [mul_comm]
              exact div_mul_cancel₀ 65535 (ne_of_gt hm)
      rw [max_eq_left hnn, min_eq_left hub, hscale]
    · intro v hv hveq
      rw [hveq]
      have : maxCell g * (65535 / maxCell g) = 65535 := by
        rw [mul_comm]
        exact div_mul_cancel₀ 65535 (ne_of_gt hm)
      rw [this]
      norm_num
      decide
  · intro hm
    have hscale : densScale g = 0 := by
      rw [densScale, if_neg]
      rw [hm]
      exact lt_irrefl 0
    refine ⟨hscale, ?_⟩
    intro b hb
    rw [normalizeTile] at hb
    rw [List.mem_map] at hb
    obtain ⟨v, _, rfl⟩ := hb
    rw [hscale]
    norm_num

/-- Witness for C8 on the grid `[2, 1, 0]` (maximum 2). -/
theorem C8_witness :
    ((∀ v ∈ ([2, 1, 0] : List ℚ), 0 ≤ v) ∧ 0 < maxCell [2, 1, 0]) ∧
    normalizeTile [2, 1, 0]
      = ([2, 1, 0] : List ℚ).map
          (fun v => (⌊v * (65535 / maxCell [2, 1, 0])⌋).toNat) := by
  have hnn : ∀ v ∈ ([2, 1, 0] : List ℚ), 0 ≤ v := by
    intro v hv
    rcases List.mem_cons.mp hv with rfl | hv
    · norm_num
    rcases List.mem_cons.mp hv with rfl | hv
    · norm_num
    rcases List.mem_cons.mp hv with rfl | hv
    · norm_num
    · simp at hv
  have hpos : 0 < maxCell [2, 1, 0] := by
    have := le_foldl_max (g := [2, 1, 0]) (v := 2) (by norm_num) 0
    calc (0 : ℚ) < 2 := by norm_num
      _ ≤ maxCell [2, 1, 0] := this
  exact ⟨⟨hnn, hpos⟩, ((C8_normalization [2, 1, 0] hnn).1 hpos).1⟩

/-! ## Point-index serialization (`spatial.py`)

`struct.pack` fields are little-endian; `struct.error` on an out-of-range
field is modelled by `Option`.  Python floats are modelled as `ℚ` and
`int(x * 1e6)` truncates toward zero. -/

def leU16 (v : Nat) : List Nat := [v % 256, v / 256 % 256]

def leU32 (v : Nat) : List Nat :=
  [v % 256, v / 256 % 256, v / 65536 % 256, v / 16777216 % 256]

/-- Python `int()` truncation toward zero of a rational. -/
def truncQ (q : ℚ) : ℤ := if 0 ≤ q then ⌊q⌋ else ⌈q⌉

/-- Fixed-point coordinate `int(x * 1e6)`. -/
def fix6 (q : ℚ) : ℤ := truncQ (q * 1000000)

/-- Signed 32-bit range accepted by `struct.pack('<i', ·)`. -/
def inI32 (z : ℤ) : Prop := -2147483648 ≤ z ∧ z < 2147483648

instance (z : ℤ) : Decidable (inI32 z) :=
  inferInstanceAs (Decidable (_ ∧ _))

/-- `struct.pack('<i', z)`: little-endian two's complement. -/
def leI32 (z : ℤ) : List Nat := leU32 (z % 4294967296).toNat

/-- scipy `cKDTree` as visible to `serialize_kdtree`: its `data` attribute
holds exactly the points passed to the constructor, in input order. -/
structure CKDTree where
  data : List (ℚ × ℚ)

def build_kdtree (points : List (ℚ × ℚ)) : CKDTree := ⟨points⟩

/-- One `struct.pack("<Iii", idx, int(x*1e6), int(y*1e6))` record. -/
def packKDRecord (idx : Nat) (p : ℚ × ℚ) : Option (List Nat) :=
  if idx < 4294967296 ∧ inI32 (fix6 p.1) ∧ inI32 (fix6 p.2) then
    some (leU32 idx ++ leI32 (fix6 p.1) ++ leI32 (fix6 p.2))
  else none

def serializeKDAux : Nat → List (ℚ × ℚ) → Option (List Nat)
  | _, [] => some []
  | idx, p :: t => do
    let r ← packKDRecord idx p
    let rest ← serializeKDAux (idx + 1) t
    pure (r ++ rest)

/-- `spatial.serialize_kdtree`: one record per entry of `kd.data`,
enumerated from 0. -/
def serialize_kdtree (kd : CKDTree) : Option (List Nat) :=
  serializeKDAux 0 kd.data

theorem packKDRecord_length {idx : Nat} {p : ℚ × ℚ} {r : List Nat}
    (h : packKDRecord idx p = some r) : r.length = 12 := by
  rw [packKDRecord] at h
  split at h
  · cases h
    simp [leU32, leI32]
  · cases h

theorem serializeKDAux_length {pts : List (ℚ × ℚ)} :
    ∀ {k : Nat} {b : List Nat}, serializeKDAux k pts = some b →
      b.length = 12 * pts.length := by
  induction pts with
  | nil =>
    intro k b h
    cases h
    rfl
  | cons p t ih =>
    intro k b h
    rw [serializeKDAux] at h
    cases hr : packKDRecord k p with
    | none => rw [hr] at h; cases h
    | some r =>
      rw [hr] at h
      cases hrest : serializeKDAux (k + 1) t with
      | none => rw [hrest] at h; cases h
      | some rest =>
        rw [hrest] at h
        cases h
        rw [List.length_append, packKDRecord_length hr, ih hrest,
          List.length_cons]
        ring

theorem fix6_small (n : ℚ) (h0 : 0 ≤ n) (h4 : n ≤ 4) : inI32 (fix6 n) := by
  constructor
  · rw [fix6, truncQ, if_pos (by positivity)]
    have : (0 : ℤ) ≤ ⌊n * 1000000⌋ := Int.floor_nonneg.mpr (by positivity)
    omega
  · rw [fix6, truncQ, if_pos (by positivity)]
    have : ⌊n * 1000000⌋ ≤ ⌊(4000000 : ℚ)⌋ :=
      Int.floor_le_floor (by nlinarith)
    have h4m : ⌊(4000000 : ℚ)⌋ = 4000000 := by norm_num
    omega

theorem packKDRecord_eval (k : Nat) (a b : ℚ) (hk : k < 4294967296)
    (ha : inI32 (fix6 a)) (hb : inI32 (fix6 b)) :
    packKDRecord k (a, b) = some (leU32 k ++ leI32 (fix6 a) ++ leI32 (fix6 b)) := by
  rw [packKDRecord, if_pos ⟨hk, ha, hb⟩]

theorem serialize_two_points :
    serialize_kdtree (build_kdtree [(1, 2), (3, 4)])
      = some ((leU32 0 ++ leI32 (fix6 1) ++ leI32 (fix6 2))
          ++ ((leU32 1 ++ leI32 (fix6 3) ++ leI32 (fix6 4)) ++ [])) := by
  rw [serialize_kdtree, build_kdtree]
  rw [serializeKDAux, serializeKDAux, serializeKDAux]
  rw [packKDRecord_eval 0 1 2 (by norm_num) (fix6_small 1 (by norm_num) (by norm_num))
    (fix6_small 2 (by norm_num) (by norm_num))]
  rw [packKDRecord_eval 1 3 4 (by norm_num) (fix6_small 3 (by norm_num) (by norm_num))
    (fix6_small 4 (by norm_num) (by norm_num))]
  rfl

theorem serialize_one_point :
    serialize_kdtree (build_kdtree [(1, 2)])
      = some ((leU32 0 ++ leI32 (fix6 1) ++ leI32 (fix6 2)) ++ []) := by
  rw [serialize_kdtree, build_kdtree]
  rw [serializeKDAux, serializeKDAux]
  rw [packKDRecord_eval 0 1 2 (by norm_num) (fix6_small 1 (by norm_num) (by norm_num))
    (fix6_small 2 (by norm_num) (by norm_num))]
  rfl

/-- C4 counterexample: one point serializes to 12 bytes, not 10. -/
theorem C4_counterexample :
    (serialize_kdtree (build_kdtree [(1, 2)])).map List.length = some 12
    ∧ (12 : Nat) ≠ 10 * ([((1 : ℚ), (2 : ℚ))] : List (ℚ × ℚ)).length := by
  constructor
  · rw [serialize_one_point]
    simp [leU32, leI32]
  · decide

/-- C4 (amended): each point serializes to one fixed 12-byte record
(4-byte sequential index plus two 4-byte fixed-point coordinates), so the
blob length is exactly 12 times the number of points. -/
theorem C4_record_size (pts : List (ℚ × ℚ)) (blob : List Nat)
    (h : serialize_kdtree (build_kdtree pts) = some blob) :
    blob.length = 12 * pts.length :=
  serializeKDAux_length h

/-- Witness for C4 (amended) on a single concrete point. -/
theorem C4_record_size_witness :
    ∃ blob, serialize_kdtree (build_kdtree [(1, 2)]) = some blob
      ∧ blob.length = 12 * ([((1 : ℚ), (2 : ℚ))] : List (ℚ × ℚ)).length :=
  ⟨_, serialize_one_point, C4_record_size [(1, 2)] _ serialize_one_point⟩

theorem serializeKDAux_record {pts : List (ℚ × ℚ)} :
    ∀ {k : Nat} {b : List Nat}, serializeKDAux k pts = some b →
      ∀ i, i < pts.length →
        (b.drop (12 * i)).take 12
          = leU32 (k + i) ++ leI32 (fix6 (pts.getD i (0, 0)).1)
              ++ leI32 (fix6 (pts.getD i (0, 0)).2) := by
  induction pts with
  | nil =>
    intro k b _ i hi
    simp at hi
  | cons p t ih =>
    intro k b h i hi
    rw [serializeKDAux] at h
    cases hr : packKDRecord k p with
    | none => rw [hr] at h; cases h
    | some r =>
      rw [hr] at h
      cases hrest : serializeKDAux (k + 1) t with
      | none => rw [hrest] at h; cases h
      | some rest =>
        rw [hrest] at h
        cases h
        have hrlen : r.length = 12 := packKDRecord_length hr
        have hrval : r = leU32 k ++ leI32 (fix6 p.1) ++ leI32 (fix6 p.2) := by
          rw [packKDRecord] at hr
          split at hr
          · cases hr
            rfl
          · cases hr
        cases i with
        | zero =>
          rw [Nat.mul_zero, List.drop_zero, List.take_left' hrlen,
            List.getD_cons_zero, Nat.add_zero, hrval]
        | succ j =>
          rw [List.length_cons, Nat.succ_lt_succ_iff] at hi
          have hdrop : (r ++ rest).drop (12 * (j + 1)) = rest.drop (12 * j) := by
            rw [show 12 * (j + 1) = r.length + 12 * j from by omega,
              ← List.drop_drop, List.drop_left]
          rw [hdrop, List.getD_cons_succ,
            show k + (j + 1) = (k + 1) + j from by ring]
          exact ih hrest j hi

/-- C9: the serialized blob lists the points in exactly the caller's
insertion order — the i-th 12-byte record carries sequential index `i`
followed by the fixed-point coordinates of the i-th input point, so file
position and the embedded index field coincide. -/
theorem C9_insertion_order (pts : List (ℚ × ℚ)) (blob : List Nat)
    (h : serialize_kdtree (build_kdtree pts) = some blob)
    (i : Nat) (hi : i < pts.length) :
    (blob.drop (12 * i)).take 12
      = leU32 i ++ leI32 (fix6 (pts.getD i (0, 0)).1)
          ++ leI32 (fix6 (pts.getD i (0, 0)).2) := by
  have := serializeKDAux_record h i hi
  rwa [Nat.zero_add] at this

/-- Witness for C9 at the second point of a two-point list. -/
theorem C9_insertion_order_witness :
    ∃ blob, serialize_kdtree (build_kdtree [(1, 2), (3, 4)]) = some blob
      ∧ (blob.drop (12 * 1)).take 12
          = leU32 1 ++ leI32 (fix6 3) ++ leI32 (fix6 4) :=
  ⟨_, serialize_two_points,
    C9_insertion_order [(1, 2), (3, 4)] _ serialize_two_points 1 (by norm_num)⟩

/-! ## Road-record encoding (`encoder.encode_road_records`)

Per record, `struct.pack('<IH', way_id, len(coords))` followed by
`struct.pack('<ii', int(x*1e6), int(y*1e6))` per vertex; any out-of-range
field raises `struct.error`, modelled as `none`. -/

def packVertex (p : ℚ × ℚ) : Option (List Nat) :=
  if inI32 (fix6 p.1) ∧ inI32 (fix6 p.2) then
    some (leI32 (fix6 p.1) ++ leI32 (fix6 p.2))
  else none

def packRoadRecord (wid : ℤ) (coords : List (ℚ × ℚ)) : Option (List Nat) := do
  let head ← if 0 ≤ wid ∧ wid < 4294967296 ∧ coords.length < 65536 then
      some (leU32 wid.toNat ++ leU16 coords.length)
    else none
  let verts ← coords.mapM packVertex
  pure (head ++ verts.flatten)

def encodeRoadPayload (records : List (ℤ × List (ℚ × ℚ))) : Option (List Nat) :=
  (records.mapM fun r => packRoadRecord r.1 r.2).map List.flatten

def encode_road_records (pid : Nat) (records : List (ℤ × List (ℚ × ℚ))) :
    Option (List Nat) :=
  (encodeRoadPayload records).map (encode_bytes pid)

/-- A record `encode_road_records` rejects: too many vertices, an id
outside the unsigned 32-bit range, or a truncated fixed-point coordinate
outside the signed 32-bit range. -/
def badRecord (r : ℤ × List (ℚ × ℚ)) : Prop :=
  65535 < r.2.length ∨ ¬(0 ≤ r.1 ∧ r.1 < 4294967296)
  ∨ ∃ p ∈ r.2, ¬(inI32 (fix6 p.1) ∧ inI32 (fix6 p.2))

theorem mapM_option_eq_none {α β : Type} (f : α → Option β) (l : List α) :
    l.mapM f = none ↔ ∃ a ∈ l, f a = none := by
  induction l with
  | nil =>
    rw [List.mapM_nil]
    simp
  | cons x t ih =>
    rw [List.mapM_cons]
    cases hfx : f x with
    | none =>
      constructor
      · intro _
        exact ⟨x, List.mem_cons_self x t, hfx⟩
      · intro _
        rfl
    | some b =>
      cases hmt : t.mapM f with
      | none =>
        constructor
        · intro _
          obtain ⟨a, ha, hfa⟩ := ih.mp hmt
          exact ⟨a, List.mem_cons_of_mem x ha, hfa⟩
        · intro _
          rfl
      | some bs =>
        constructor
        · intro hcontra
          simp at hcontra
        · rintro ⟨a, ha, hfa⟩
          rcases List.mem_cons.mp ha with rfl | ha'
          · rw [hfa] at hfx
            cases hfx
          · have := ih.mpr ⟨a, ha', hfa⟩
            rw [this] at hmt
            cases hmt

theorem packVertex_eq_none (p : ℚ × ℚ) :
    packVertex p = none ↔ ¬(inI32 (fix6 p.1) ∧ inI32 (fix6 p.2)) := by
  rw [packVertex]
  split
  next h => exact iff_of_false (by simp) (not_not_intro h)
  next h => exact iff_of_true rfl h

theorem packRoadRecord_eq_none (wid : ℤ) (coords : List (ℚ × ℚ)) :
    packRoadRecord wid coords = none ↔ badRecord (wid, coords) := by
  rw [packRoadRecord, badRecord]
  by_cases hh : 0 ≤ wid ∧ wid < 4294967296 ∧ coords.length < 65536
  · rw [if_pos hh]
    cases hm : coords.mapM packVertex with
    | none =>
      refine iff_of_true rfl ?_
      obtain ⟨p, hp, hpn⟩ := (mapM_option_eq_none packVertex coords).mp hm
      exact Or.inr (Or.inr ⟨p, hp, (packVertex_eq_none p).mp hpn⟩)
    | some vs =>
      refine iff_of_false (by simp) ?_
      rintro (hlen | hid | ⟨p, hp, hpb⟩)
      · have hc : coords.length < 65536 := hh.2.2
        exact absurd (show 65535 < coords.length from hlen) (by omega)
      · exact hid ⟨hh.1, hh.2.1⟩
      · have hnone : packVertex p = none := (packVertex_eq_none p).mpr hpb
        have := (mapM_option_eq_none packVertex coords).mpr ⟨p, hp, hnone⟩
        rw [this] at hm
        cases hm
  · rw [if_neg hh]
    refine iff_of_true rfl ?_
    rcases Decidable.not_and_iff_or_not.mp hh with h1 | h23
    · exact Or.inr (Or.inl (fun hc => h1 hc.1))
    · rcases Decidable.not_and_iff_or_not.mp h23 with h2 | h3
      · exact Or.inr (Or.inl (fun hc => h2 hc.2))
      · exact Or.inl (show 65535 < coords.length by omega)

/-- C10: `encode_road_records` yields no output bytes exactly when some
record has more than 65535 vertices, an id outside `[0, 2^32)`, or a
truncated fixed-point coordinate outside the signed 32-bit range; in
particular it never silently emits a wrapped or truncated field. -/
theorem C10_range_errors (pid : Nat) (records : List (ℤ × List (ℚ × ℚ))) :
    encode_road_records pid records = none ↔ ∃ r ∈ records, badRecord r := by
  rw [encode_road_records, encodeRoadPayload, Option.map_eq_none',
    Option.map_eq_none', mapM_option_eq_none]
  constructor
  · rintro ⟨r, hr, hnone⟩
    exact ⟨r, hr, (packRoadRecord_eq_none r.1 r.2).mp hnone⟩
  · rintro ⟨r, hr, hbad⟩
    exact ⟨r, hr, (packRoadRecord_eq_none r.1 r.2).mpr hbad⟩

/-! ## Parcel-kind registry

Modelled from the spec: `constants.py` is absent from `src/`; §6 of the
spec fixes `manifest(0)` and lists the remaining firmware-facing kinds in
registry order (cartography/road-geometry, road-name index, point-index,
offset-index, density-tile, POI-name, POI-geometry, POI-offset-index). -/

def MANIFEST_PARCEL_ID : Nat := 0
def CARTO_PARCEL_ID : Nat := 1
def NAV_PARCEL_ID : Nat := 2
def KDTREE_PARCEL_ID : Nat := 3
def BTREE_PARCEL_ID : Nat := 4
def DENS_PARCEL_ID : Nat := 5
def POI_NAME_PARCEL_ID : Nat := 6
def POI_GEOM_PARCEL_ID : Nat := 7
def POI_INDEX_PARCEL_ID : Nat := 8

/-! ## Offset-index bookkeeping (`main.build`, steps 3.b and 6.a) -/

/-- Offsets recorded for the road offset index: `main.build` advances the
running offset by `size = 6 + len(coords) * 16` per record. -/
def roadOffsetsAux : Nat → List (ℤ × List (ℚ × ℚ)) → List (ℤ × Nat)
  | _, [] => []
  | off, (wid, coords) :: t =>
    (wid, off) :: roadOffsetsAux (off + (6 + coords.length * 16)) t

def roadOffsets (records : List (ℤ × List (ℚ × ℚ))) : List (ℤ × Nat) :=
  roadOffsetsAux 0 records

/-- Offset increment per POI record in `main.build` step 3.b:
`offset_acc += len(payload) + 6`. -/
def poiOffsetIncrement (payload : List Nat) : Nat := payload.length + 6

/-- C2: the stored offsets do not point at the records.  Road side: the
stored offsets advance by `6 + 16·(vertex count)` although an encoded
geometry record occupies `6 + 8·(vertex count)` bytes — on two 2-vertex
roads the second record is recorded at offset 38 but actually starts at
byte 22.  POI side: the stored offsets advance by 14 bytes although each
record in the companion geometry file occupies a 24-byte parcel. -/
theorem C2_offset_divergence :
    roadOffsets [((1 : ℤ), [((0 : ℚ), (0 : ℚ)), (0, 0)]),
        ((2 : ℤ), [((0 : ℚ), (0 : ℚ)), (0, 0)])]
      = [(1, 0), (2, 38)]
    ∧ (encodeRoadPayload [((1 : ℤ), [((0 : ℚ), (0 : ℚ)), (0, 0)])]).map
        List.length = some 22
    ∧ poiOffsetIncrement (leI32 0 ++ leI32 0) = 14
    ∧ (encode_bytes POI_GEOM_PARCEL_ID (leI32 0 ++ leI32 0)).length = 24
    ∧ (38 : Nat) ≠ 22 := by
  refine ⟨rfl, ?_, rfl, ?_, by decide⟩
  · have hv : packVertex ((0 : ℚ), (0 : ℚ)) = some (leI32 0 ++ leI32 0) := by
      rw [packVertex, if_pos]
      · rw [show fix6 (0 : ℚ) = 0 from by
          rw [fix6, truncQ, if_pos (by norm_num)]
          norm_num]
      · rw [show fix6 (0 : ℚ) = 0 from by
          rw [fix6, truncQ, if_pos (by norm_num)]
          norm_num]
        exact ⟨⟨by norm_num, by norm_num⟩, by norm_num, by norm_num⟩
    have hrec : packRoadRecord 1 [((0 : ℚ), (0 : ℚ)), (0, 0)]
        = some ((leU32 (1 : ℤ).toNat ++ leU16 2)
            ++ [leI32 0 ++ leI32 0, leI32 0 ++ leI32 0].flatten) := by
      rw [packRoadRecord, if_pos ⟨by norm_num, by norm_num, by norm_num⟩]
      rw [List.mapM_cons, hv, List.mapM_cons, hv, List.mapM_nil]
      rfl
    rw [encodeRoadPayload, List.mapM_cons, hrec, List.mapM_nil]
    simp [leU32, leU16, leI32]
  · simp [encode_bytes, hdr_length, leI32, leU32]

/-! ## Per-region file writes (`main.build`, step 6)

`pathlib.Path.write_bytes` opens the file with mode `wb`, truncating it:
a file's final content is the payload of the *last* write to that name.
A working directory is modelled as the ordered list of write calls. -/

abbrev FileSys := List (String × List Nat)

def writeBytes (fs : FileSys) (name : String) (data : List Nat) : FileSys :=
  fs ++ [(name, data)]

def fileContents (fs : FileSys) (name : String) : Option (List Nat) :=
  (fs.reverse.find? (fun e => e.1 == name)).map (fun e => e.2)

/-- The four `write_bytes` calls of `main.build` step 6 for one region:
the road-name parcel then the B+-index parcel to `<stem>F.SDL`, the
road-geometry parcel then the point-index parcel to `<stem>M.SDL`. -/
def regionFileWrites (stem : String) (names : List (List Char))
    (records : List (ℤ × List (ℚ × ℚ))) (btBlob kdBlob : List Nat) :
    Option FileSys := do
  let carto ← encode_road_records CARTO_PARCEL_ID records
  pure (writeBytes (writeBytes (writeBytes (writeBytes []
      (stem ++ "F.SDL") (encode_strings NAV_PARCEL_ID names))
      (stem ++ "F.SDL") (encode_bytes BTREE_PARCEL_ID btBlob))
      (stem ++ "M.SDL") carto)
      (stem ++ "M.SDL") (encode_bytes KDTREE_PARCEL_ID kdBlob))

theorem string_append_ne {s a b : String} (h : a.data ≠ b.data) :
    s ++ a ≠ s ++ b := by
  intro he
  apply h
  have hd : (s ++ a).data = (s ++ b).data := congrArg String.data he
  rw [String.data_append, String.data_append] at hd
  exact List.append_cancel_left hd

theorem encode_bytes_length (pid : Nat) (P : List Nat) :
    (encode_bytes pid P).length = 16 + P.length := by
  simp [encode_bytes, hdr_length]

/-- C1: `write_bytes` truncates, so each finished per-region file holds
only the second parcel written to it — `<stem>F.SDL` is exactly the
offset-index parcel (the road-name parcel is lost) and `<stem>M.SDL` is
exactly the point-index parcel (the road-geometry parcel is lost); in
particular neither file contains its two planned parcels in sequence. -/
theorem C1_overwrite (stem : String) (names : List (List Char))
    (records : List (ℤ × List (ℚ × ℚ))) (btBlob kdBlob : List Nat)
    (fs : FileSys)
    (h : regionFileWrites stem names records btBlob kdBlob = some fs) :
    fileContents fs (stem ++ "F.SDL") = some (encode_bytes BTREE_PARCEL_ID btBlob)
    ∧ fileContents fs (stem ++ "M.SDL") = some (encode_bytes KDTREE_PARCEL_ID kdBlob)
    ∧ fileContents fs (stem ++ "F.SDL")
        ≠ some (encode_strings NAV_PARCEL_ID names
            ++ encode_bytes BTREE_PARCEL_ID btBlob)
    ∧ ∀ carto, encode_road_records CARTO_PARCEL_ID records = some carto →
        fileContents fs (stem ++ "M.SDL")
          ≠ some (carto ++ encode_bytes KDTREE_PARCEL_ID kdBlob) := by
  rw [regionFileWrites] at h
  cases hc : encode_road_records CARTO_PARCEL_ID records with
  | none =>
    rw [hc] at h
    cases h
  | some carto =>
    rw [hc] at h
    have hfs : fs = writeBytes (writeBytes (writeBytes (writeBytes []
        (stem ++ "F.SDL") (encode_strings NAV_PARCEL_ID names))
        (stem ++ "F.SDL") (encode_bytes BTREE_PARCEL_ID btBlob))
        (stem ++ "M.SDL") carto)
        (stem ++ "M.SDL") (encode_bytes KDTREE_PARCEL_ID kdBlob) := by
      cases h
      rfl
    have hMF : ((stem ++ "M.SDL") == (stem ++ "F.SDL")) = false :=
      beq_eq_false_iff_ne.mpr (string_append_ne (by decide))
    have hFF : ((stem ++ "F.SDL") == (stem ++ "F.SDL")) = true := beq_self_eq_true _
    have hMM : ((stem ++ "M.SDL") == (stem ++ "M.SDL")) = true := beq_self_eq_true _
    have hF : fileContents fs (stem ++ "F.SDL")
        = some (encode_bytes BTREE_PARCEL_ID btBlob) := by
      rw [hfs, fileContents]
      simp only [writeBytes, List.append_assoc, List.nil_append,
        List.cons_append, List.reverse_cons, List.reverse_nil,
        List.find?_cons, hMF, hFF]
      rfl
    have hM : fileContents fs (stem ++ "M.SDL")
        = some (encode_bytes KDTREE_PARCEL_ID kdBlob) := by
      rw [hfs, fileContents]
      simp only [writeBytes, List.append_assoc, List.nil_append,
        List.cons_append, List.reverse_cons, List.reverse_nil,
        List.find?_cons, hMM]
      rfl
    refine ⟨hF, hM, ?_, ?_⟩
    · rw [hF]
      intro he
      have hlen := congrArg (fun o => (Option.getD o []).length) he
      simp only [Option.getD_some, List.length_append, encode_bytes_length,
        encode_strings] at hlen
      omega
    · intro carto' hc'
      have hcc : carto = carto' := Option.some.inj hc'
      subst hcc
      rw [hM]
      intro he
      have hlen := congrArg (fun o => (Option.getD o []).length) he
      simp only [Option.getD_some, List.length_append, encode_bytes_length] at hlen
      cases hcp : encodeRoadPayload records with
      | none =>
        rw [encode_road_records, hcp] at hc
        cases hc
      | some p =>
        rw [encode_road_records, hcp] at hc
        have hcv : carto = encode_bytes CARTO_PARCEL_ID p :=
          (Option.some.inj hc).symm
        rw [hcv, encode_bytes_length] at hlen
        omega

/-- Witness for C1 on a region with no roads and empty blobs. -/
theorem C1_overwrite_witness :
    ∃ fs, regionFileWrites "AA" [] [] [] [] = some fs
      ∧ fileContents fs ("AA" ++ "F.SDL")
          = some (encode_bytes BTREE_PARCEL_ID []) := by
  have hsome : regionFileWrites "AA" [] [] [] []
      = some (writeBytes (writeBytes (writeBytes (writeBytes []
          ("AA" ++ "F.SDL") (encode_strings NAV_PARCEL_ID []))
          ("AA" ++ "F.SDL") (encode_bytes BTREE_PARCEL_ID []))
          ("AA" ++ "M.SDL") (encode_bytes CARTO_PARCEL_ID []))
          ("AA" ++ "M.SDL") (encode_bytes KDTREE_PARCEL_ID [])) := rfl
  exact ⟨_, hsome, (C1_overwrite "AA" [] [] [] [] _ hsome).1⟩

/-! ## Manifest (`main.build_manifest_payload` and `main.build`, steps 3–6)

The JSON payload is modelled as an abstract document; the spec accepts any
serialization that preserves the shape `{ files: [ { name: string }, ... ] }`. -/

inductive Json where
  | str : String → Json
  | arr : List Json → Json
  | obj : List (String × Json) → Json

/-- The characters of `pathlib.Path(region).name`: everything after the
last `/` (Geofabrik slugs carry no trailing slash). -/
def lastComponent (l : List Char) : List Char :=
  l.foldl (fun acc c => if c = '/' then [] else acc ++ [c]) []

/-- `pathlib.Path(region).name.upper().replace("-", "_")`, character by
character (the `replace` pattern is the single character `-`). -/
def stemData (region : String) : List Char :=
  ((lastComponent region.data).map Char.toUpper).map
    (fun c => if c = '-' then '_' else c)

def stemOf (region : String) : String := String.mk (stemData region)

/-- The file-name list handed to `build_manifest_payload` in step 4: the
five fixed global names plus the two per-region names. -/
def manifestFilenames (regions : List String) : List String :=
  ["MTOC.SDL", "CARTOTOP.SDL", "REGION.SDL", "REGIONS.SDL", "KDTREE.SDL"]
  ++ regions.flatMap (fun r => [stemOf r ++ "F.SDL", stemOf r ++ "M.SDL"])

/-- `build_manifest_payload`: the document
`{"files": [{"name": fn} for fn in filenames]}` (its `regions` argument is
unused by the source). -/
def build_manifest_payload (regions : List String) (filenames : List String) :
    Json :=
  Json.obj [("files", Json.arr (filenames.map
    (fun fn => Json.obj [("name", Json.str fn)])))]

/-- Shape decoder for `{ files: [ { name: string }, ... ] }`. -/
def manifestNames : Json → Option (List String)
  | Json.obj [("files", Json.arr entries)] =>
    entries.mapM (fun e => match e with
      | Json.obj [("name", Json.str n)] => some n
      | _ => none)
  | _ => none

/-- Density-tile file names `DENS{code}{Z}{tile_id}.SDL` written in
step 5 (`tile_id = ty * num_tiles + tx`). -/
def densityFilenames (region : String) : List String :=
  (List.range 4).flatMap (fun z =>
    (List.range (2 ^ z)).flatMap (fun tx =>
      (List.range (2 ^ z)).map (fun ty =>
        "DENS" ++ String.mk ((stemData region).take 2) ++ toString z
          ++ toString (ty * 2 ^ z + tx) ++ ".SDL")))

/-- Every file the build writes (steps 3.c–6): the POI name and geometry
files, the five fixed global files, the density tiles, and the two files
per region. -/
def producedFilenames (regions : List String) : List String :=
  ["POINAMES.SDL", "POIGEOM.SDL", "MTOC.SDL", "CARTOTOP.SDL",
   "REGION.SDL", "REGIONS.SDL", "KDTREE.SDL"]
  ++ regions.flatMap densityFilenames
  ++ regions.flatMap (fun r => [stemOf r ++ "F.SDL", stemOf r ++ "M.SDL"])

/-- C5 counterexample: with one region the build writes `POINAMES.SDL`
and the density tile `DENSX00.SDL`, but neither name is in the list the
manifest is built from. -/
theorem C5_counterexample :
    "POINAMES.SDL" ∈ producedFilenames ["x"]
    ∧ "POINAMES.SDL" ∉ manifestFilenames ["x"]
    ∧ "DENSX00.SDL" ∈ producedFilenames ["x"]
    ∧ "DENSX00.SDL" ∉ manifestFilenames ["x"] := by
  refine ⟨by decide, by decide, by decide, by decide⟩

theorem manifest_entries_mapM (filenames : List String) :
    (filenames.map (fun fn => Json.obj [("name", Json.str fn)])).mapM
      (fun e => match e with
        | Json.obj [("name", Json.str n)] => some n
        | _ => none) = some filenames := by
  induction filenames with
  | nil => rfl
  | cons fn t ih =>
    rw [List.map_cons, List.mapM_cons, ih]
    rfl

/-- C5 (amended): the kind-0 manifest document has the shape
`{ files: [ { name: string }, ... ] }` and lists exactly the five fixed
global file names plus the two per-region file names — not the POI
name/geometry files nor the density-tile files. -/
theorem C5_manifest_contents (regions : List String) :
    manifestNames (build_manifest_payload regions (manifestFilenames regions))
      = some (manifestFilenames regions)
    ∧ ∀ r ∈ regions, (stemOf r ++ "F.SDL") ∈ manifestFilenames regions
        ∧ (stemOf r ++ "M.SDL") ∈ manifestFilenames regions := by
  constructor
  · rw [build_manifest_payload, manifestNames]
    exact manifest_entries_mapM (manifestFilenames regions)
  · intro r hr
    constructor
    · rw [manifestFilenames]
      rw [List.mem_append, List.mem_flatMap]
      exact Or.inr ⟨r, hr, by simp⟩
    · rw [manifestFilenames]
      rw [List.mem_append, List.mem_flatMap]
      exact Or.inr ⟨r, hr, by simp⟩

end SDAL
